import Mathlib

/-!
Shallow embedding of the 10-K segmentation engine
(`src/etl_10k/text/segment.py` and `src/etl_10k/text/segment_fallback.py`).

A document is modelled as its list of lines (`List String`); the file text is
the concatenation of each line followed by a newline.  Python exceptions are
modelled by `Except SegErr`.
-/

set_option maxRecDepth 10000

/-- Errors raised by the engine: `maxEmpty` models the `ValueError` raised by
`max` on an empty sequence inside `number_of_rounds`, `intEmpty` the
`ValueError` of `int` applied to a digit-free string, and `indexError` the
`IndexError` of indexing past the end of a list in `_select_best_candidate`. -/
inductive SegErr where
  | maxEmpty : SegErr
  | intEmpty : SegErr
  | indexError : SegErr
deriving DecidableEq, Repr

/-- One detected heading occurrence: normalized item token and 1-indexed line. -/
structure Entry where
  item_num : String
  item_line : Nat
deriving DecidableEq, Repr

/-- Whitespace characters recognised by the scanner (the ASCII part of
Python's regex class for whitespace). -/
def isPySpace (c : Char) : Bool :=
  c = ' ' || c = '\t' || c = '\n' || c = '\r' || c = '\u000B' || c = '\u000C'

/-- ASCII lowercasing of one character. -/
def toLowerCh (c : Char) : Char :=
  if 'A' ≤ c ∧ c ≤ 'Z' then Char.ofNat (c.toNat + 32) else c

/-- ASCII uppercasing of one character. -/
def toUpperCh (c : Char) : Char :=
  if 'a' ≤ c ∧ c ≤ 'z' then Char.ofNat (c.toNat - 32) else c

/-- A regex word character: letter, digit or underscore. -/
def isWordChar (c : Char) : Bool :=
  c.isAlpha || c.isDigit || c = '_'

/-- Letter or digit (the class stripped from the end in `clean_item_number`
is its complement). -/
def isAlnumAscii (c : Char) : Bool :=
  c.isAlpha || c.isDigit

/-- Replace the non-breaking space variants with plain spaces
(`s.replace("\xa0"," ")...` in `_normalize_ws`). -/
def nbspFix (c : Char) : Char :=
  if c = ' ' ∨ c = ' ' ∨ c = ' ' then ' ' else c

/-- Split a character list into maximal whitespace-free words. -/
def wordsAux : List Char → List Char → List (List Char)
  | [], cur => if cur.isEmpty then [] else [cur.reverse]
  | c :: cs, cur =>
    if isPySpace c then
      if cur.isEmpty then wordsAux cs [] else cur.reverse :: wordsAux cs []
    else wordsAux cs (c :: cur)

/-- The whitespace-separated words of a character list (Python `str.split()`). -/
def wordsOf (l : List Char) : List (List Char) := wordsAux l []

/-- `_normalize_ws` on a character list: replace non-breaking spaces, collapse
whitespace runs to single spaces and strip both ends. -/
def wsNormalize (l : List Char) : List Char :=
  List.intercalate [' '] (wordsOf (l.map nbspFix))

/-- `_normalize_ws` at the string level. -/
def normalize_ws (s : String) : String := ⟨wsNormalize s.data⟩

/-- Everything before the first dot; the whole string when there is no dot
(`before_dot` in the source). -/
def before_dot (s : String) : String := ⟨s.data.takeWhile (· ≠ '.')⟩

/-- Position just after the first closing parenthesis, when one exists
(the bounded `[^)]*\)` part of the first regex of `clean_item_number`). -/
def afterRparen : List Char → Option (List Char)
  | [] => none
  | c :: cs => if c = ')' then some cs else afterRparen cs

/-- One pass of `re.sub` replacing every parenthetical-before-dot
occurrence with a dot, fuelled by the length of the list. -/
def phase1F : Nat → List Char → List Char
  | 0, l => l
  | _ + 1, [] => []
  | f + 1, c :: cs =>
    if c = '(' then
      match afterRparen cs with
      | some ('.' :: after) => '.' :: phase1F f after
      | _ => c :: phase1F f cs
    else c :: phase1F f cs

/-- Strip a trailing run of non-alphanumeric characters
(the second regex of `clean_item_number`). -/
def stripTrailing (l : List Char) : List Char :=
  (l.reverse.dropWhile (fun c => !(isAlnumAscii c))).reverse

/-- `clean_item_number`: remove parenthetical suffixes followed by a period,
then strip trailing non-alphanumeric characters. -/
def clean_item_number (s : String) : String :=
  ⟨stripTrailing (phase1F s.data.length s.data)⟩

/-- Match of `HEAD_RE` on a normalized line, returning the `rest` group
(from the first digit to the end of the line) when the line matches
`^\s*(items?)\b\s*[0-9].*$` case-insensitively. -/
def matchHead (l0 : List Char) : Option (List Char) :=
  let l := l0.dropWhile isPySpace
  match l with
  | c1 :: c2 :: c3 :: c4 :: rest =>
    if toLowerCh c1 = 'i' ∧ toLowerCh c2 = 't' ∧ toLowerCh c3 = 'e' ∧ toLowerCh c4 = 'm' then
      let p := match rest with
               | c :: r => if toLowerCh c = 's' then r else rest
               | [] => rest
      let boundary := match p with
                      | [] => true
                      | c :: _ => !(isWordChar c)
      if boundary then
        match p.dropWhile isPySpace with
        | d :: q => if d.isDigit then some (d :: q) else none
        | [] => none
      else none
    else none
  | _ => none

/-- Normalized label extracted from the `rest` group: clean the item number,
normalize whitespace, take the first word, keep everything before the first
dot, and uppercase. -/
def labelOf (rest : List Char) : String :=
  let cleaned := clean_item_number ⟨rest⟩
  let tok := (wordsOf (cleaned.data.map nbspFix)).headD []
  ⟨(tok.takeWhile (· ≠ '.')).map toUpperCh⟩

/-- Per-line work of `item_dict_builder`: normalize the raw line, skip it when
blank, and otherwise return the extracted label when `HEAD_RE` matches. -/
def lineLabel (raw : String) : Option String :=
  let line := wsNormalize raw.data
  if line.isEmpty then none
  else
    match matchHead line with
    | some rest => some (labelOf rest)
    | none => none

/-- Scan the document lines, numbering them from `i`, and collect one `Entry`
per qualifying line. -/
def scanLines : List String → Nat → List Entry
  | [], _ => []
  | l :: ls, i =>
    match lineLabel l with
    | some lab => ⟨lab, i⟩ :: scanLines ls (i + 1)
    | none => scanLines ls (i + 1)

/-- ASCII lowercase of a string (Python `.lower()` on the labels). -/
def lowerStr (s : String) : String := ⟨s.data.map toLowerCh⟩

/-- Remove consecutive duplicate labels, comparing lowercased keys
(the dedup loop at the end of `item_dict_builder`). -/
def dedupe_consec : List Entry → Option String → List Entry
  | [], _ => []
  | r :: rs, last =>
    let key := lowerStr r.item_num
    if some key = last then dedupe_consec rs (some key)
    else r :: dedupe_consec rs (some key)

/-- `item_dict_builder`: ordered list of detected `Item` headings with their
1-indexed line numbers, consecutive duplicates removed. -/
def item_dict_builder (doc : List String) : List Entry :=
  dedupe_consec (scanLines doc 1) none

/-- Digit characters of a label (`"".join(ch for ch in item_num if ch.isdigit())`). -/
def digitsOf (s : String) : List Char := s.data.filter Char.isDigit

/-- Numeric value of a digit list. -/
def natFromDigits (ds : List Char) : Nat :=
  ds.foldl (fun acc c => acc * 10 + (c.toNat - 48)) 0

/-- Python `int` applied to the digits of a label: a `ValueError` when the
label has no digit. -/
def entryVal (e : Entry) : Except SegErr Int :=
  match digitsOf e.item_num with
  | [] => .error .intEmpty
  | ds => .ok (natFromDigits ds : Nat)

/-- The list comprehension `[int(i) for i in out]`: first failure raises. -/
def valsOf : List Entry → Except SegErr (List Int)
  | [] => .ok []
  | e :: es =>
    match entryVal e with
    | .error err => .error err
    | .ok v =>
      match valsOf es with
      | .error err => .error err
      | .ok vs => .ok (v :: vs)

/-- Total shadow of `entryVal`: the numeric value of a label's digits. -/
def numValT (e : Entry) : Int := (natFromDigits (digitsOf e.item_num) : Nat)

/-- Python `max` on a nonempty list (only ever applied to nonempty lists). -/
def listMaxInt : List Int → Int
  | [] => 0
  | x :: xs => xs.foldl max x

/-- The loop `while max(l) > 20: l.remove(max(l))`, fuelled by the list
length; `max` of an empty list raises `ValueError`. -/
def dropMaxF : Nat → List Int → Except SegErr (List Int)
  | _, [] => .error .maxEmpty
  | 0, l => .ok l
  | f + 1, l =>
    let m := listMaxInt l
    if 20 < m then dropMaxF f (l.erase m) else .ok l

/-- Discard values above 20 the way the source's `while` loop does. -/
def dropMax (l : List Int) : Except SegErr (List Int) := dropMaxF (l.length + 1) l

/-- `Counter(top_counts).most_common(1)[0][0]`: the value of maximal
multiplicity, ties broken by first occurrence. -/
def modeFirst (l : List Nat) : Nat :=
  match l with
  | [] => 0
  | x :: xs => (x :: xs).foldl (fun best y => if l.count y > l.count best then y else best) x

/-- `number_of_rounds`: extract the numeric item values, drop values above 20,
and return either the estimated round count (`b = true`) or the true final
section number `last_ele` (`b = false`). -/
def number_of_rounds (item_dict : List Entry) (b : Bool) : Except SegErr Int :=
  match valsOf item_dict with
  | .error err => .error err
  | .ok vals =>
    match dropMax vals with
    | .error err => .error err
    | .ok listAllItems =>
      let max_num := listMaxInt listAllItems
      let top_counts := [listAllItems.count max_num, listAllItems.count (max_num - 1),
                         listAllItems.count (max_num - 2), listAllItems.count (max_num - 3)]
      let rounds := modeFirst top_counts
      let last_ele := if listAllItems.count max_num ≥ listAllItems.count (max_num - 1)
                      then max_num else max_num - 1
      if b then .ok (rounds : Nat) else .ok last_ele

/-- `table_content_builder`: the canonical ordered item list, extended with
`n`, `nA`, `nB`, `nC` for each `n` from 9 up to `last_ele`. -/
def table_content_builder (doc : List String) : Except SegErr (List String) :=
  match number_of_rounds (item_dict_builder doc) false with
  | .error err => .error err
  | .ok last_ele =>
    let base := ["1", "1A", "1B", "1C", "1D", "2", "3", "4", "5", "6", "7", "7A", "8"]
    let extras := (List.range (last_ele - 8).toNat).flatMap
      (fun j => let n := toString (9 + j); [n, n ++ "A", n ++ "B", n ++ "C"])
    .ok (base ++ extras)

/-- One pass over the canonical list: for each canonical label take the first
heading with that label strictly after the cursor, advancing the cursor to it
(the inner double loop of `_build_candidates`). -/
def roundPass (dict : List Entry) : List String → Nat → List Entry × Nat
  | [], cur => ([], cur)
  | t :: ts, cur =>
    match dict.find? (fun r => r.item_num == t && decide (cur < r.item_line)) with
    | some r =>
      let (rest, c') := roundPass dict ts r.item_line
      (r :: rest, c')
    | none => roundPass dict ts cur

/-- The round loop of `_build_candidates`: one candidate per round, a single
cursor carried across rounds. -/
def primaryRoundsAux (tc : List String) (dict : List Entry) : Nat → Nat → List (List Entry)
  | 0, _ => []
  | n + 1, cur =>
    let (lines, cur') := roundPass dict tc cur
    lines :: primaryRoundsAux tc dict n cur'

/-- Candidate set built by the primary strategy. -/
def primaryRounds (tc : List String) (dict : List Entry) (rounds : Nat) : List (List Entry) :=
  primaryRoundsAux tc dict rounds 0

/-- Occurrence count of a label in the heading list
(`Counter(r['item_num'] for r in item_dict)`). -/
def countNum (dict : List Entry) (num : String) : Nat :=
  (dict.map Entry.item_num).count num

/-- One pass of the fallback strategy: identical to `roundPass` except that the
cursor advances only when the matched label occurs at least `rounds` times. -/
def fallbackRoundPass (dict : List Entry) (rounds : Nat) : List String → Nat → List Entry × Nat
  | [], cur => ([], cur)
  | t :: ts, cur =>
    match dict.find? (fun r => r.item_num == t && decide (cur < r.item_line)) with
    | some r =>
      let cur2 := if countNum dict r.item_num ≥ rounds then r.item_line else cur
      let (rest, c') := fallbackRoundPass dict rounds ts cur2
      (r :: rest, c')
    | none => fallbackRoundPass dict rounds ts cur

/-- The round loop of `fallback_build_candidates`. -/
def fallbackRoundsAux (tc : List String) (dict : List Entry) (rounds : Nat) :
    Nat → Nat → List (List Entry)
  | 0, _ => []
  | n + 1, cur =>
    let (lines, cur') := fallbackRoundPass dict rounds tc cur
    lines :: fallbackRoundsAux tc dict rounds n cur'

/-- Candidate set built by the fallback strategy. -/
def fallbackRounds (tc : List String) (dict : List Entry) (rounds : Nat) : List (List Entry) :=
  fallbackRoundsAux tc dict rounds rounds 0

/-- `fallback_build_candidates` from `segment_fallback.py`. -/
def fallback_build_candidates (doc : List String) : Except SegErr (List (List Entry)) :=
  match table_content_builder doc with
  | .error err => .error err
  | .ok tc =>
    match number_of_rounds (item_dict_builder doc) true with
    | .error err => .error err
    | .ok rounds => .ok (fallbackRounds tc (item_dict_builder doc) rounds.toNat)

/-- `_build_candidates`: primary candidate set, replaced wholesale by the
fallback set when any primary candidate is empty. -/
def build_candidates (doc : List String) : Except SegErr (List (List Entry) × List Entry) :=
  match table_content_builder doc with
  | .error err => .error err
  | .ok tc =>
    match number_of_rounds (item_dict_builder doc) true with
    | .error err => .error err
    | .ok rounds =>
      let prim := primaryRounds tc (item_dict_builder doc) rounds.toNat
      if prim.any (fun c => c.isEmpty) then
        match fallback_build_candidates doc with
        | .error err => .error err
        | .ok fb => .ok (fb, item_dict_builder doc)
      else .ok (prim, item_dict_builder doc)

/-- Line number of the last selected entry (`selected[-1]['item_line']`). -/
def lastLineOf (sel : List Entry) : Nat := (sel.getLastD ⟨"", 0⟩).item_line

/-- The orphan loop of `_append_orphans`: scan the heading list, appending the
first occurrence of each label strictly after the last selected line that is
neither selected nor already appended. -/
def orphanAux (lastLine : Nat) (selNums : List String) : List Entry → List String → List Entry
  | [], _ => []
  | r :: rs, seen =>
    if decide (lastLine < r.item_line) && !(selNums.contains r.item_num)
        && !(seen.contains r.item_num) then
      r :: orphanAux lastLine selNums rs (r.item_num :: seen)
    else orphanAux lastLine selNums rs seen

/-- `_append_orphans`: recover body-only items appearing after the last
selected boundary. -/
def append_orphans (selected : List Entry) (item_dict : List Entry) : List Entry :=
  match selected with
  | [] => selected
  | _ :: _ =>
    selected ++ orphanAux (lastLineOf selected) (selected.map Entry.item_num) item_dict []

/-- Character offsets of each line start in the file text, where each line of
the document is followed by a newline (`_line_start_offsets`). -/
def lineStartOffsets : List String → List Nat
  | [] => [0]
  | l :: ls => 0 :: (lineStartOffsets ls).map (· + (l.length + 1))

/-- `_normalize_line_index`: a 1-based in-range line becomes a 0-based index,
anything else is clamped into range. -/
def normIdx (line : Nat) (numLines : Nat) : Nat :=
  if 1 ≤ line ∧ line ≤ numLines then line - 1 else min line (numLines - 1)

/-- Character span of a nonempty candidate as the selector computes it. -/
def candSpan (starts : List Nat) (numLines : Nat) (cand : List Entry) : Int :=
  (starts.getD (normIdx (cand.getLastD ⟨"", 0⟩).item_line numLines) 0 : Int)
    - (starts.getD (normIdx (cand.headD ⟨"", 0⟩).item_line numLines) 0 : Int)

/-- The scoring loop of `_select_best_candidate`: track the index of the best
span seen so far (`none` models the initial `float("-inf")`); accessing
`cand[0]` of an empty candidate raises `IndexError`. -/
def bestLoop (starts : List Nat) (numLines : Nat) :
    List (List Entry) → Option (Nat × Int) → Nat → Except SegErr Nat
  | [], best, _ =>
    .ok (match best with | some (bI, _) => bI | none => 0)
  | c :: cs, best, i =>
    match c with
    | [] => .error .indexError
    | _ :: _ =>
      let s := candSpan starts numLines c
      let better := match best with | none => true | some (_, bS) => decide (bS < s)
      if better then bestLoop starts numLines cs (some (i, s)) (i + 1)
      else bestLoop starts numLines cs best (i + 1)

/-- `_select_best_candidate`: a one-element candidate set is taken as is;
otherwise score every candidate by character span and keep the earliest
maximum, then append orphans. -/
def select_best_candidate (list_lines : List (List Entry)) (item_dict : List Entry)
    (doc : List String) : Except SegErr (List Entry) :=
  if list_lines.length == 1 then
    .ok (append_orphans (list_lines.headD []) item_dict)
  else
    match bestLoop (lineStartOffsets doc) doc.length list_lines none 0 with
    | .error err => .error err
    | .ok bI =>
      match list_lines.get? bI with
      | some c => .ok (append_orphans c item_dict)
      | none => .error .indexError

/-- `item_segmentation_list`: build the candidate sets and select the best. -/
def item_segmentation_list (doc : List String) : Except SegErr (List Entry) :=
  match build_candidates doc with
  | .error err => .error err
  | .ok (list_lines, item_dict) => select_best_candidate list_lines item_dict doc

/-- One output chunk of the slicing loop of `print_items`: label and the
half-open 1-based line range. -/
structure Chunk where
  label : String
  start_line : Nat
  end_line : Nat
deriving DecidableEq, Repr

/-- The slicing of `print_items`: each entry's chunk runs from its line to the
next entry's line, the last one to line `N + 1`. -/
def sliceChunks : List Entry → Nat → List Chunk
  | [], _ => []
  | [e], n => [⟨e.item_num, e.item_line, n + 1⟩]
  | e :: e' :: rest, n => ⟨e.item_num, e.item_line, e'.item_line⟩ :: sliceChunks (e' :: rest) n

/-!
Definitions written from the specification's words, to be compared with the
source-derived definitions above.
-/

/-- Modelled from the spec (RoundEstimator, §4.2): discard numeric values
above 20, let `max_num` be the maximum of the remainder, and return `max_num`
when its occurrence count is at least that of `max_num - 1`, else
`max_num - 1`. -/
def lastEleSpec (vals : List Int) : Int :=
  let rem := vals.filter (fun v => decide (v ≤ 20))
  let m := listMaxInt rem
  if rem.count m ≥ rem.count (m - 1) then m else m - 1

/-- Keep the first occurrence of each label, dropping later ones
(fuelled by the list length). -/
def dedupF : Nat → List Entry → List Entry
  | 0, _ => []
  | _ + 1, [] => []
  | f + 1, e :: es =>
    e :: dedupF f (es.filter (fun r => !(r.item_num == e.item_num)))

/-- First occurrence of each label, in order. -/
def dedupByLabel (l : List Entry) : List Entry := dedupF l.length l

/-- Modelled from the spec (orphan recovery, §4.6): the first occurrence of
each label lying strictly after the selected sequence's last boundary and not
already selected, in document order. -/
def orphanSpec (sel : List Entry) (dict : List Entry) : List Entry :=
  dedupByLabel (dict.filter
    (fun r => decide (lastLineOf sel < r.item_line)
      && !((sel.map Entry.item_num).contains r.item_num)))

/-- Index of the first occurrence of a value. -/
def firstIdxOf : List Int → Int → Nat
  | [], _ => 0
  | x :: xs, v => if x = v then 0 else (firstIdxOf xs v) + 1

/-- Index of the first maximum of a list of spans: the selection rule the
spec prescribes (maximum span, ties to the earliest round). -/
def firstMaxIdx (l : List Int) : Nat := firstIdxOf l (listMaxInt l)

/-- Character span of a candidate as the spec describes it: line-start offset
of the last entry's line minus line-start offset of the first entry's line. -/
def specSpanChars (doc : List String) (cand : List Entry) : Int :=
  ((lineStartOffsets doc).getD ((cand.getLastD ⟨"", 0⟩).item_line - 1) 0 : Int)
    - ((lineStartOffsets doc).getD ((cand.headD ⟨"", 0⟩).item_line - 1) 0 : Int)

/-- Modelled from the spec: line-start byte offsets of the document, with each
line followed by a one-byte newline (the claim scores candidates by byte
offsets, which the code does not compute). -/
def byteLineStarts : List String → List Nat
  | [] => [0]
  | l :: ls => 0 :: (byteLineStarts ls).map (· + (l.utf8ByteSize + 1))

/-- Byte span of a candidate per the claim's words. -/
def specSpanBytes (doc : List String) (cand : List Entry) : Int :=
  ((byteLineStarts doc).getD ((cand.getLastD ⟨"", 0⟩).item_line - 1) 0 : Int)
    - ((byteLineStarts doc).getD ((cand.headD ⟨"", 0⟩).item_line - 1) 0 : Int)

/-- Pure shadow of the scoring loop on span values only. -/
def pureBest : List Int → Option (Nat × Int) → Nat → Nat
  | [], some (bI, _), _ => bI
  | [], none, _ => 0
  | s :: ss, best, i =>
    let better := match best with | none => true | some (_, bS) => decide (bS < s)
    if better then pureBest ss (some (i, s)) (i + 1)
    else pureBest ss best (i + 1)

/-!
Concrete documents used by the counterexamples, the code-bug evaluation and
the witnesses.
-/

/-- A document of `n` blank lines except for the given 1-indexed marked lines. -/
def mkDoc (n : Nat) (marks : List (Nat × String)) : List String :=
  (List.range n).map (fun i => ((marks.lookup (i + 1)).getD ""))

/-- The document of the spec's Scenario 1: qualifying headings only at
lines 5, 40 and 120. -/
def scenario1Doc : List String :=
  mkDoc 120 [(5, "Item 1. Business"), (40, "Item 1A. Risk Factors"), (120, "Item 2. Properties")]

/-- A document on which the primary builder leaves round 2 empty, the fallback
is invoked, and the selected candidate is not monotone. -/
def fallbackCexDoc : List String :=
  mkDoc 44 [(3, "Item 7."), (10, "Item 2."), (40, "Item 8."), (42, "Item 7."), (44, "Item 8.")]

/-- A document whose body contains an `Item 400.` heading after the selected
candidate's last boundary. -/
def orphan400Doc : List String :=
  mkDoc 35 [(3, "Item 7."), (6, "Item 8."), (9, "Item 7."), (30, "Item 8."), (35, "Item 400.")]

/-- A clean two-round document on which the primary builder succeeds. -/
def primaryOkDoc : List String :=
  mkDoc 12 [(3, "Item 7."), (6, "Item 8."), (9, "Item 7."), (12, "Item 8.")]

/-- A document whose first line is two-byte characters, so that character
offsets and byte offsets diverge. -/
def multibyteDoc : List String := ["ββββ", "", "aaaaaaa", "", ""]

/-- First candidate over the multibyte region: character span 5, byte span 9. -/
def mbCand0 : List Entry := [⟨"A", 1⟩, ⟨"A", 2⟩]

/-- Second candidate over the ASCII region: character span 8, byte span 8. -/
def mbCand1 : List Entry := [⟨"B", 3⟩, ⟨"B", 4⟩]

/-!
Claim theorems: counterexamples and closed evaluations.
-/

/-- Claim C2 (code bug evaluation): on the document of Scenario 1 — qualifying
headings exactly `Item 1.` at line 5, `Item 1A.` at line 40 and `Item 2.` at
line 120 — the engine does not return the expected SelectedSequence; the
round estimate is 0, the candidate set is empty and the selection step fails
with an `IndexError`. -/
theorem scenario1_crashes_with_index_error :
    item_segmentation_list scenario1Doc = .error .indexError ∧
    number_of_rounds (item_dict_builder scenario1Doc) true = .ok 0 ∧
    item_dict_builder scenario1Doc = [⟨"1", 5⟩, ⟨"1A", 40⟩, ⟨"2", 120⟩] :=
  ⟨rfl, rfl, rfl⟩

/-- Claim C1 (counterexample): on `fallbackCexDoc` the fallback builder is
used and the engine returns a SelectedSequence whose line numbers are not
strictly increasing. -/
theorem fallback_output_not_monotone :
    item_segmentation_list fallbackCexDoc = .ok [⟨"2", 10⟩, ⟨"7", 3⟩, ⟨"8", 40⟩] ∧
    ¬ List.Pairwise (fun a b : Entry => a.item_line < b.item_line)
        [⟨"2", 10⟩, ⟨"7", 3⟩, ⟨"8", 40⟩] :=
  ⟨rfl, by decide⟩

/-- Claim C9: a label with numeric value 400, occurring only in the body after
the selected candidate's last boundary, is appended by orphan recovery even
though the round estimator discarded the value 400 as noise (the estimated
final section number is 8). -/
theorem orphan400_appended :
    item_segmentation_list orphan400Doc = .ok [⟨"7", 9⟩, ⟨"8", 30⟩, ⟨"400", 35⟩] ∧
    number_of_rounds (item_dict_builder orphan400Doc) false = .ok 8 :=
  ⟨rfl, rfl⟩

/-- Claim C5 (counterexample): on a document with a two-byte-per-character
first line, the selector picks the candidate of maximal character span even
though the other candidate has the larger byte span, so the selector does not
maximise byte spans as the claim states. -/
theorem selector_not_byte_span_maximal :
    select_best_candidate [mbCand0, mbCand1] [] multibyteDoc = .ok mbCand1 ∧
    specSpanBytes multibyteDoc mbCand0 > specSpanBytes multibyteDoc mbCand1 ∧
    mbCand1 ≠ mbCand0 :=
  ⟨rfl, by decide, by decide⟩

/-- Claim C3 (counterexample): with SelectedSequence `[(1, 5)]` on a ten-line
document, line 1 lies in `[1, N + 1)` but in no chunk, so the chunks do not
partition `[1, N + 1)`. -/
theorem slicer_does_not_cover_line_one :
    sliceChunks [⟨"1", 5⟩] 10 = [⟨"1", 5, 11⟩] ∧
    (sliceChunks [⟨"1", 5⟩] 10).countP
      (fun c => decide (c.start_line ≤ 1) && decide (1 < c.end_line)) = 0 :=
  ⟨rfl, rfl⟩

/-!
Lemmas about the scanner: line numbers are strictly increasing.
-/

theorem scanLines_lower_bound : ∀ (doc : List String) (i : Nat),
    List.Pairwise (fun a b : Entry => a.item_line < b.item_line) (scanLines doc i) ∧
    ∀ e ∈ scanLines doc i, i ≤ e.item_line := by
  intro doc
  induction doc with
  | nil => intro i; simp [scanLines]
  | cons l ls ih =>
    intro i
    simp only [scanLines]
    cases h : lineLabel l with
    | some lab =>
      refine ⟨List.pairwise_cons.mpr ⟨?_, (ih (i + 1)).1⟩, ?_⟩
      · intro e he
        have := (ih (i + 1)).2 e he
        simpa using Nat.lt_of_lt_of_le (Nat.lt_succ_self i) this
      · intro e he
        rcases List.mem_cons.mp he with rfl | he'
        · rfl
        · exact Nat.le_of_succ_le ((ih (i + 1)).2 e he')
    | none =>
      refine ⟨(ih (i + 1)).1, ?_⟩
      intro e he
      exact Nat.le_of_succ_le ((ih (i + 1)).2 e he)

theorem dedupe_consec_sublist : ∀ (l : List Entry) (last : Option String),
    (dedupe_consec l last).Sublist l := by
  intro l
  induction l with
  | nil => intro last; simp [dedupe_consec]
  | cons r rs ih =>
    intro last
    simp only [dedupe_consec]
    by_cases h : some (lowerStr r.item_num) = last
    · simp only [if_pos h]
      exact (ih _).trans (List.sublist_cons_self r rs)
    · simp only [if_neg h]
      exact (ih _).cons₂ r

theorem item_dict_pairwise (doc : List String) :
    List.Pairwise (fun a b : Entry => a.item_line < b.item_line) (item_dict_builder doc) :=
  List.Pairwise.sublist (dedupe_consec_sublist (scanLines doc 1) none)
    (scanLines_lower_bound doc 1).1

/-!
Lemmas about the primary candidate builder: the shared cursor only advances.
-/

theorem roundPass_spec (dict : List Entry) : ∀ (ts : List String) (cur : Nat)
    (es : List Entry) (c' : Nat), roundPass dict ts cur = (es, c') →
    List.Pairwise (fun a b : Entry => a.item_line < b.item_line) es ∧
    (∀ e ∈ es, cur < e.item_line ∧ e.item_line ≤ c' ∧ e ∈ dict) ∧ cur ≤ c' := by
  intro ts
  induction ts with
  | nil =>
    intro cur es c' h
    simp only [roundPass, Prod.mk.injEq] at h
    obtain ⟨rfl, rfl⟩ := h
    simp
  | cons t ts ih =>
    intro cur es c' h
    cases hf : dict.find? (fun r => r.item_num == t && decide (cur < r.item_line)) with
    | some r =>
      simp only [roundPass, hf] at h
      obtain ⟨rest, c₂, hr⟩ : ∃ rest c₂, roundPass dict ts r.item_line = (rest, c₂) :=
        ⟨_, _, rfl⟩
      rw [hr] at h
      obtain ⟨rfl, rfl⟩ := Prod.mk.injEq .. |>.mp h
      have hp : (r.item_num == t && decide (cur < r.item_line)) = true :=
        @List.find?_some Entry (fun r => r.item_num == t && decide (cur < r.item_line)) r dict hf
      have hcur : cur < r.item_line := by
        have := (Bool.and_eq_true ..).mp hp |>.2
        exact of_decide_eq_true this
      have hmem : r ∈ dict := List.mem_of_find?_eq_some hf
      obtain ⟨hpw, hbd, hle⟩ := ih r.item_line rest c₂ hr
      refine ⟨List.pairwise_cons.mpr ⟨fun e he => (hbd e he).1, hpw⟩, ?_, ?_⟩
      · intro e he
        rcases List.mem_cons.mp he with rfl | he'
        · exact ⟨hcur, hle, hmem⟩
        · obtain ⟨h1, h2, h3⟩ := hbd e he'
          exact ⟨Nat.lt_trans hcur h1, h2, h3⟩
      · exact Nat.le_of_lt (Nat.lt_of_lt_of_le hcur hle)
    | none =>
      simp only [roundPass, hf] at h
      exact ih cur es c' h

theorem primaryRoundsAux_spec (tc : List String) (dict : List Entry) :
    ∀ (n : Nat) (cur : Nat),
    List.Pairwise (fun a b : Entry => a.item_line < b.item_line)
      (primaryRoundsAux tc dict n cur).flatten ∧
    ∀ e ∈ (primaryRoundsAux tc dict n cur).flatten, cur < e.item_line ∧ e ∈ dict := by
  intro n
  induction n with
  | zero => intro cur; simp [primaryRoundsAux]
  | succ n ih =>
    intro cur
    simp only [primaryRoundsAux]
    obtain ⟨lines, cur', hr⟩ : ∃ lines cur', roundPass dict tc cur = (lines, cur') :=
      ⟨_, _, rfl⟩
    rw [hr]
    obtain ⟨hpw, hbd, hle⟩ := roundPass_spec dict tc cur lines cur' hr
    obtain ⟨ihpw, ihbd⟩ := ih cur'
    simp only [List.flatten_cons]
    constructor
    · refine List.pairwise_append.mpr ⟨hpw, ihpw, ?_⟩
      intro a ha b hb
      exact Nat.lt_of_le_of_lt (hbd a ha).2.1 (ihbd b hb).1
    · intro e he
      rcases List.mem_append.mp he with he' | he'
      · exact ⟨(hbd e he').1, (hbd e he').2.2⟩
      · exact ⟨Nat.lt_of_le_of_lt hle (ihbd e he').1, (ihbd e he').2⟩

/-- Claim C10: in the primary candidate builder a single cursor is shared
across all rounds and only ever advances, so the concatenation of the
candidates in round order has strictly increasing line numbers and no
heading match is assigned to more than one round's candidate. -/
theorem primary_cursor_monotone (tc : List String) (dict : List Entry) (rounds : Nat) :
    List.Pairwise (· < ·) ((primaryRounds tc dict rounds).flatten.map Entry.item_line) ∧
    (primaryRounds tc dict rounds).flatten.Nodup := by
  have h := (primaryRoundsAux_spec tc dict rounds 0).1
  constructor
  · exact List.pairwise_map.mpr h
  · exact (h.imp fun hlt => by
      intro heq
      exact absurd (congrArg Entry.item_line heq) (Nat.ne_of_lt hlt))

/-!
Claim C4: a document with no qualifying heading line makes the engine fail.
-/

theorem scanLines_eq_nil : ∀ (doc : List String) (i : Nat),
    (∀ l ∈ doc, lineLabel l = none) → scanLines doc i = [] := by
  intro doc
  induction doc with
  | nil => intro i _; rfl
  | cons l ls ih =>
    intro i h
    have hl : lineLabel l = none := h l (List.mem_cons_self l ls)
    simp only [scanLines, hl]
    exact ih (i + 1) (fun x hx => h x (List.mem_cons_of_mem l hx))

/-- Claim C4: on any document with zero qualifying `Item` heading lines the
engine fails (with the error of `max` over an empty sequence, the engine's
no-headings-detected condition) instead of returning a SelectedSequence. -/
theorem no_headings_engine_fails (doc : List String)
    (h : ∀ l ∈ doc, lineLabel l = none) :
    item_segmentation_list doc = .error .maxEmpty := by
  have hd : item_dict_builder doc = [] := by
    unfold item_dict_builder
    rw [scanLines_eq_nil doc 1 h]
    rfl
  have h1 : number_of_rounds (item_dict_builder doc) false = .error .maxEmpty := by
    rw [hd]; rfl
  have h2 : table_content_builder doc = .error .maxEmpty := by
    unfold table_content_builder
    rw [h1]
  have h3 : build_candidates doc = .error .maxEmpty := by
    unfold build_candidates
    rw [h2]
  unfold item_segmentation_list
  rw [h3]

/-- Claim C4, witness: a concrete document with no qualifying line. -/
theorem no_headings_engine_fails_witness :
    (∀ l ∈ ["hello", "", "world"], lineLabel l = none) ∧
    item_segmentation_list ["hello", "", "world"] = .error .maxEmpty :=
  ⟨by decide, no_headings_engine_fails ["hello", "", "world"] (by decide)⟩

/-!
Claim C6: the round estimator's noise filter and final section number.
-/

theorem foldl_max_init_le (xs : List Int) : ∀ a : Int, a ≤ xs.foldl max a := by
  induction xs with
  | nil => intro a; exact le_refl a
  | cons x xs ih =>
    intro a
    exact le_trans (le_max_left a x) (ih (max a x))

theorem foldl_max_le (xs : List Int) : ∀ (a x : Int), x ∈ xs → x ≤ xs.foldl max a := by
  induction xs with
  | nil => intro a x hx; cases hx
  | cons y ys ih =>
    intro a x hx
    rcases List.mem_cons.mp hx with rfl | hx'
    · exact le_trans (le_max_right a x) (foldl_max_init_le ys (max a x))
    · exact ih (max a y) x hx'

theorem foldl_max_mem (xs : List Int) : ∀ a : Int, xs.foldl max a = a ∨ xs.foldl max a ∈ xs := by
  induction xs with
  | nil => intro a; exact Or.inl rfl
  | cons x xs ih =>
    intro a
    rcases ih (max a x) with h | h
    · rcases max_choice a x with hm | hm
      · exact Or.inl (by rw [List.foldl_cons, h, hm])
      · exact Or.inr (by rw [List.foldl_cons, h, hm]; exact List.mem_cons_self x xs)
    · exact Or.inr (List.mem_cons_of_mem x h)

theorem le_listMaxInt {l : List Int} {x : Int} (h : x ∈ l) : x ≤ listMaxInt l := by
  cases l with
  | nil => cases h
  | cons y ys =>
    rcases List.mem_cons.mp h with rfl | h'
    · exact foldl_max_init_le ys x
    · exact foldl_max_le ys y x h'

theorem listMaxInt_mem {l : List Int} (h : l ≠ []) : listMaxInt l ∈ l := by
  cases l with
  | nil => exact absurd rfl h
  | cons y ys =>
    rcases foldl_max_mem ys y with h' | h'
    · rw [listMaxInt, h']; exact List.mem_cons_self y ys
    · exact List.mem_cons_of_mem y h'

theorem filter_erase_big (m : Int) (hm : ¬ m ≤ 20) : ∀ (l : List Int),
    (l.erase m).filter (fun v => decide (v ≤ 20)) = l.filter (fun v => decide (v ≤ 20)) := by
  intro l
  induction l with
  | nil => rfl
  | cons a l ih =>
    rw [List.erase_cons]
    by_cases ha : a = m
    · subst ha
      simp only [if_pos (beq_self_eq_true a)]
      rw [List.filter_cons_of_neg (by simpa using hm)]
    · rw [if_neg (by simpa using ha)]
      by_cases hp : a ≤ 20
      · rw [List.filter_cons_of_pos (by simpa using hp),
            List.filter_cons_of_pos (by simpa using hp), ih]
      · rw [List.filter_cons_of_neg (by simpa using hp),
            List.filter_cons_of_neg (by simpa using hp), ih]

theorem dropMaxF_filter : ∀ (f : Nat) (l : List Int), l.length ≤ f →
    (∃ x ∈ l, x ≤ 20) → dropMaxF f l = .ok (l.filter (fun v => decide (v ≤ 20))) := by
  intro f
  induction f with
  | zero =>
    intro l hlen hex
    have : l = [] := List.length_eq_zero.mp (Nat.le_zero.mp hlen)
    subst this
    obtain ⟨x, hx, _⟩ := hex
    cases hx
  | succ f ih =>
    intro l hlen hex
    cases l with
    | nil =>
      obtain ⟨x, hx, _⟩ := hex
      cases hx
    | cons a l' =>
      by_cases hbig : 20 < listMaxInt (a :: l')
      · have hmem : listMaxInt (a :: l') ∈ a :: l' := listMaxInt_mem (by simp)
        have herase_len : ((a :: l').erase (listMaxInt (a :: l'))).length ≤ f := by
          rw [List.length_erase_of_mem hmem]
          exact Nat.le_of_succ_le_succ (by simpa using hlen)
        have hex' : ∃ x ∈ (a :: l').erase (listMaxInt (a :: l')), x ≤ 20 := by
          obtain ⟨x, hx, hx20⟩ := hex
          refine ⟨x, ?_, hx20⟩
          have hne : x ≠ listMaxInt (a :: l') := by
            intro heq
            rw [heq] at hx20
            exact absurd (lt_of_lt_of_le hbig hx20) (lt_irrefl 20)
          exact (List.mem_erase_of_ne hne).mpr hx
        rw [show dropMaxF (f + 1) (a :: l') =
              dropMaxF f ((a :: l').erase (listMaxInt (a :: l'))) from by
            simp only [dropMaxF, if_pos hbig]]
        rw [ih _ herase_len hex']
        rw [filter_erase_big (listMaxInt (a :: l')) (by omega) (a :: l')]
      · rw [show dropMaxF (f + 1) (a :: l') = .ok (a :: l') from by
            simp only [dropMaxF, if_neg hbig]]
        have : (a :: l').filter (fun v => decide (v ≤ 20)) = a :: l' := by
          rw [List.filter_eq_self]
          intro x hx
          have := le_listMaxInt hx
          simp only [decide_eq_true_eq]
          omega
        rw [this]

theorem valsOf_ok : ∀ (dict : List Entry), (∀ e ∈ dict, digitsOf e.item_num ≠ []) →
    valsOf dict = .ok (dict.map numValT) := by
  intro dict
  induction dict with
  | nil => intro _; rfl
  | cons e es ih =>
    intro h
    have he : digitsOf e.item_num ≠ [] := h e (List.mem_cons_self e es)
    have hv : entryVal e = .ok (numValT e) := by
      unfold entryVal numValT
      cases hd : digitsOf e.item_num with
      | nil => exact absurd hd he
      | cons c cs => rfl
    simp only [valsOf, hv, ih (fun x hx => h x (List.mem_cons_of_mem e hx)), List.map_cons]

/-- Claim C6: for every nonempty heading list whose labels all carry digits
and containing at least one numeric value at most 20, the round estimator
first discards every numeric value above 20, takes `max_num` as the maximum
of the rest, and returns `max_num` when its occurrence count is at least that
of `max_num - 1`, and `max_num - 1` otherwise. -/
theorem round_estimator_last_ele (dict : List Entry)
    (_hne : dict ≠ [])
    (hdig : ∀ e ∈ dict, digitsOf e.item_num ≠ [])
    (hsmall : ∃ e ∈ dict, numValT e ≤ 20) :
    number_of_rounds dict false = .ok (lastEleSpec (dict.map numValT)) := by
  have hv := valsOf_ok dict hdig
  have hex : ∃ x ∈ dict.map numValT, x ≤ 20 := by
    obtain ⟨e, he, hle⟩ := hsmall
    exact ⟨numValT e, List.mem_map_of_mem numValT he, hle⟩
  have hd : dropMax (dict.map numValT) =
      .ok ((dict.map numValT).filter (fun v => decide (v ≤ 20))) :=
    dropMaxF_filter _ _ (Nat.le_succ _) hex
  simp only [number_of_rounds, hv, hd, lastEleSpec, Bool.false_eq_true, if_false]

/-- Claim C6, witness: the heading list `1, 25, 2` exercises both the noise
filter and the tie case of the final-section rule. -/
theorem round_estimator_last_ele_witness :
    ([⟨"1", 1⟩, ⟨"25", 2⟩, ⟨"2", 3⟩] : List Entry) ≠ [] ∧
    (∀ e ∈ ([⟨"1", 1⟩, ⟨"25", 2⟩, ⟨"2", 3⟩] : List Entry), digitsOf e.item_num ≠ []) ∧
    (∃ e ∈ ([⟨"1", 1⟩, ⟨"25", 2⟩, ⟨"2", 3⟩] : List Entry), numValT e ≤ 20) ∧
    number_of_rounds [⟨"1", 1⟩, ⟨"25", 2⟩, ⟨"2", 3⟩] false =
      .ok (lastEleSpec ([⟨"1", 1⟩, ⟨"25", 2⟩, ⟨"2", 3⟩].map numValT)) :=
  ⟨by decide, by decide, by decide,
    round_estimator_last_ele _ (by decide) (by decide) (by decide)⟩

/-!
Claim C3: what the slicing loop of `print_items` covers.
-/

theorem sliceChunks_starts : ∀ (sel : List Entry) (n : Nat),
    (sliceChunks sel n).map Chunk.start_line = sel.map Entry.item_line := by
  intro sel
  induction sel with
  | nil => intro n; rfl
  | cons e rest ih =>
    intro n
    cases rest with
    | nil => rfl
    | cons e' rest' =>
      simp only [sliceChunks, List.map_cons]
      rw [show (sliceChunks (e' :: rest') n).map Chunk.start_line =
            (e' :: rest').map Entry.item_line from ih n]
      simp

theorem sliceChunks_chain : ∀ (sel : List Entry) (n : Nat),
    List.Chain' (fun a b : Chunk => a.end_line = b.start_line) (sliceChunks sel n) := by
  intro sel
  induction sel with
  | nil => intro n; simp [sliceChunks]
  | cons e rest ih =>
    intro n
    cases rest with
    | nil => simp [sliceChunks]
    | cons e' rest' =>
      simp only [sliceChunks]
      refine List.chain'_cons'.mpr ⟨?_, ih n⟩
      intro c hc
      cases rest' with
      | nil => simp [sliceChunks] at hc; rw [← hc]
      | cons e'' rest'' => simp [sliceChunks] at hc; rw [← hc]

theorem getLast?_cons_of_ne_nil {α : Type} (a : α) (l : List α) (c : α)
    (hne : l ≠ []) (h : (a :: l).getLast? = some c) : l.getLast? = some c := by
  cases l with
  | nil => exact absurd rfl hne
  | cons b l' => rwa [List.getLast?_cons_cons] at h

theorem sliceChunks_last_end : ∀ (sel : List Entry) (n : Nat) (c : Chunk),
    (sliceChunks sel n).getLast? = some c → c.end_line = n + 1 := by
  intro sel
  induction sel with
  | nil => intro n c h; simp [sliceChunks] at h
  | cons e rest ih =>
    intro n c h
    cases rest with
    | nil =>
      simp only [sliceChunks, List.getLast?_singleton, Option.some.injEq] at h
      rw [← h]
    | cons e' rest' =>
      simp only [sliceChunks] at h
      have hne : sliceChunks (e' :: rest') n ≠ [] := by
        cases rest' <;> simp [sliceChunks]
      exact ih n c (getLast?_cons_of_ne_nil _ _ c hne h)

theorem sliceChunks_countP_one : ∀ (sel : List Entry) (n : Nat), sel ≠ [] →
    List.Pairwise (fun a b : Entry => a.item_line < b.item_line) sel →
    (∀ e ∈ sel, 1 ≤ e.item_line ∧ e.item_line ≤ n) →
    ∀ k : Nat, (sel.headD ⟨"", 0⟩).item_line ≤ k → k ≤ n →
    (sliceChunks sel n).countP
      (fun c => decide (c.start_line ≤ k) && decide (k < c.end_line)) = 1 := by
  intro sel
  induction sel with
  | nil => intro n h; exact absurd rfl h
  | cons e rest ih =>
    intro n _ hpw hrange k hk hkn
    cases rest with
    | nil =>
      have : (decide (e.item_line ≤ k) && decide (k < n + 1)) = true := by
        simp only [Bool.and_eq_true, decide_eq_true_eq]
        exact ⟨by simpa using hk, Nat.lt_succ_of_le hkn⟩
      simp [sliceChunks, List.countP_cons, this]
    | cons e' rest' =>
      simp only [sliceChunks, List.countP_cons]
      by_cases hlt : k < e'.item_line
      · have hfirst : (decide ((Chunk.mk e.item_num e.item_line e'.item_line).start_line ≤ k)
            && decide (k < (Chunk.mk e.item_num e.item_line e'.item_line).end_line)) = true := by
          simp only [Bool.and_eq_true, decide_eq_true_eq]
          exact ⟨by simpa using hk, hlt⟩
        have htail : (sliceChunks (e' :: rest') n).countP
            (fun c => decide (c.start_line ≤ k) && decide (k < c.end_line)) = 0 := by
          rw [List.countP_eq_zero]
          intro c hc
          have hcs : c.start_line ∈ (e' :: rest').map Entry.item_line := by
            rw [← sliceChunks_starts (e' :: rest') n]
            exact List.mem_map_of_mem Chunk.start_line hc
          have hges : e'.item_line ≤ c.start_line := by
            rcases List.mem_map.mp hcs with ⟨x, hx, hxeq⟩
            rcases List.mem_cons.mp hx with rfl | hx'
            · omega
            · have := (List.pairwise_cons.mp (List.pairwise_cons.mp hpw).2).1 x hx'
              omega
          simp only [Bool.and_eq_true, decide_eq_true_eq, not_and]
          intro hle
          omega
        rw [htail, hfirst]
        simp
      · have hfirst : (decide ((Chunk.mk e.item_num e.item_line e'.item_line).start_line ≤ k)
            && decide (k < (Chunk.mk e.item_num e.item_line e'.item_line).end_line)) = false := by
          simp only [Bool.and_eq_false_iff, decide_eq_false_iff_not]
          right; exact hlt
        have htail := ih n (by simp) (List.pairwise_cons.mp hpw).2
          (fun x hx => hrange x (List.mem_cons_of_mem e hx)) k (by simpa using Nat.le_of_not_lt hlt) hkn
        rw [htail, hfirst]
        simp

/-- Claim C1 amended helper is below; this is the amended Claim C3: for a
nonempty SelectedSequence with strictly increasing lines inside `[1, N]`, the
chunks partition the line range from the first boundary to `N + 1`: every such
line lies in exactly one chunk, lines before the first boundary lie in none,
adjacent chunks share their boundary, the last chunk ends at `N + 1`, and the
chunk starts are exactly the selected lines in order. -/
theorem slicer_partitions_from_first_boundary (sel : List Entry) (n : Nat)
    (hne : sel ≠ [])
    (hpw : List.Pairwise (fun a b : Entry => a.item_line < b.item_line) sel)
    (hrange : ∀ e ∈ sel, 1 ≤ e.item_line ∧ e.item_line ≤ n) :
    (∀ k : Nat, (sel.headD ⟨"", 0⟩).item_line ≤ k → k ≤ n →
      (sliceChunks sel n).countP
        (fun c => decide (c.start_line ≤ k) && decide (k < c.end_line)) = 1) ∧
    (∀ k : Nat, k < (sel.headD ⟨"", 0⟩).item_line →
      (sliceChunks sel n).countP
        (fun c => decide (c.start_line ≤ k) && decide (k < c.end_line)) = 0) ∧
    List.Chain' (fun a b : Chunk => a.end_line = b.start_line) (sliceChunks sel n) ∧
    (∀ c : Chunk, (sliceChunks sel n).getLast? = some c → c.end_line = n + 1) ∧
    (sliceChunks sel n).map Chunk.start_line = sel.map Entry.item_line := by
  refine ⟨sliceChunks_countP_one sel n hne hpw hrange, ?_, sliceChunks_chain sel n,
    fun c => sliceChunks_last_end sel n c, sliceChunks_starts sel n⟩
  intro k hk
  rw [List.countP_eq_zero]
  intro c hc
  have hcs : c.start_line ∈ sel.map Entry.item_line := by
    rw [← sliceChunks_starts sel n]
    exact List.mem_map_of_mem Chunk.start_line hc
  have hge : (sel.headD ⟨"", 0⟩).item_line ≤ c.start_line := by
    rcases List.mem_map.mp hcs with ⟨x, hx, hxeq⟩
    cases sel with
    | nil => cases hx
    | cons e rest =>
      rcases List.mem_cons.mp hx with rfl | hx'
      · simp only [List.headD_cons]; omega
      · have := (List.pairwise_cons.mp hpw).1 x hx'
        simp only [List.headD_cons]
        omega
  simp only [Bool.and_eq_true, decide_eq_true_eq, not_and]
  intro hle
  omega

/-- Claim C3 amended, witness: the sequence `[(1, 2), (2, 4)]` on a five-line
document, checked at line 3. -/
theorem slicer_partitions_from_first_boundary_witness :
    (([⟨"1", 2⟩, ⟨"2", 4⟩] : List Entry) ≠ []) ∧
    List.Pairwise (fun a b : Entry => a.item_line < b.item_line)
      ([⟨"1", 2⟩, ⟨"2", 4⟩] : List Entry) ∧
    (∀ e ∈ ([⟨"1", 2⟩, ⟨"2", 4⟩] : List Entry), 1 ≤ e.item_line ∧ e.item_line ≤ 5) ∧
    (sliceChunks [⟨"1", 2⟩, ⟨"2", 4⟩] 5).countP
      (fun c => decide (c.start_line ≤ 3) && decide (3 < c.end_line)) = 1 :=
  ⟨by decide, by decide, by decide,
    (slicer_partitions_from_first_boundary [⟨"1", 2⟩, ⟨"2", 4⟩] 5 (by decide) (by decide)
      (by decide)).1 3 (by decide) (by decide)⟩

/-!
Claim C7: orphan recovery appends exactly the first occurrence of each
qualifying label.
-/

theorem dedupF_eq_nil : ∀ (f : Nat), dedupF f [] = [] := by
  intro f
  cases f <;> rfl

theorem dedupF_fuel : ∀ (f f' : Nat) (l : List Entry), l.length ≤ f → l.length ≤ f' →
    dedupF f l = dedupF f' l := by
  intro f
  induction f with
  | zero =>
    intro f' l hf _
    have : l = [] := List.length_eq_zero.mp (Nat.le_zero.mp hf)
    subst this
    rw [dedupF_eq_nil, dedupF_eq_nil]
  | succ f ih =>
    intro f' l hf hf'
    cases l with
    | nil => rw [dedupF_eq_nil, dedupF_eq_nil]
    | cons e es =>
      cases f' with
      | zero => exact absurd hf' (by simp)
      | succ f' =>
        simp only [dedupF]
        rw [ih f' (es.filter (fun r => !(r.item_num == e.item_num)))
          (le_trans (List.length_filter_le _ es) (Nat.le_of_succ_le_succ hf))
          (le_trans (List.length_filter_le _ es) (Nat.le_of_succ_le_succ hf'))]

theorem dedupF_sublist : ∀ (f : Nat) (l : List Entry), (dedupF f l).Sublist l := by
  intro f
  induction f with
  | zero => intro l; cases l <;> simp [dedupF]
  | succ f ih =>
    intro l
    cases l with
    | nil => simp [dedupF]
    | cons e es =>
      simp only [dedupF]
      exact ((ih _).trans (List.filter_sublist es)).cons₂ e

theorem dedupF_labels_nodup : ∀ (f : Nat) (l : List Entry), l.length ≤ f →
    ((dedupF f l).map Entry.item_num).Nodup := by
  intro f
  induction f with
  | zero =>
    intro l hf
    have : l = [] := List.length_eq_zero.mp (Nat.le_zero.mp hf)
    subst this
    simp [dedupF_eq_nil]
  | succ f ih =>
    intro l hf
    cases l with
    | nil => simp [dedupF_eq_nil]
    | cons e es =>
      simp only [dedupF, List.map_cons, List.nodup_cons]
      constructor
      · intro hmem
        rcases List.mem_map.mp hmem with ⟨x, hx, hxeq⟩
        have hx' : x ∈ es.filter (fun r => !(r.item_num == e.item_num)) :=
          (dedupF_sublist f _).mem hx
        have := (List.mem_filter.mp hx').2
        rw [hxeq] at this
        simp at this
      · exact ih _ (le_trans (List.length_filter_le _ es) (Nat.le_of_succ_le_succ hf))


theorem orphanAux_eq_spec (lastL : Nat) (selNums : List String) :
    ∀ (dict : List Entry) (seen : List String),
    orphanAux lastL selNums dict seen =
      dedupByLabel ((dict.filter (fun r => decide (lastL < r.item_line)
          && !(selNums.contains r.item_num))).filter
        (fun r => !(seen.contains r.item_num))) := by
  intro dict
  induction dict with
  | nil => intro seen; simp [orphanAux, dedupByLabel, dedupF_eq_nil]
  | cons r rs ih =>
    intro seen
    simp only [orphanAux, List.filter_cons]
    by_cases h1 : (decide (lastL < r.item_line) && !(selNums.contains r.item_num)) = true
    · rw [h1]
      simp only [if_true, Bool.true_and]
      rw [List.filter_cons]
      by_cases h2 : seen.contains r.item_num = true
      · rw [h2]
        simp only [Bool.not_true, Bool.false_eq_true, if_false]
        exact ih seen
      · have h2' : seen.contains r.item_num = false := Bool.eq_false_iff.mpr h2
        rw [h2']
        simp only [Bool.not_false, if_true]
        rw [ih (r.item_num :: seen)]
        simp only [dedupByLabel, List.length_cons, dedupF]
        congr 1
        rw [List.filter_filter, List.filter_filter, List.filter_filter]
        have hpt : ∀ x ∈ rs,
            ((!((r.item_num :: seen).contains x.item_num)) &&
              (decide (lastL < x.item_line) && !(selNums.contains x.item_num))) =
            ((!(x.item_num == r.item_num)) &&
              ((!(seen.contains x.item_num)) &&
                (decide (lastL < x.item_line) && !(selNums.contains x.item_num)))) := by
          intro x _
          rw [List.contains_cons]
          cases hxe : x.item_num == r.item_num <;>
            cases hxs : seen.contains x.item_num <;>
            cases hxl : decide (lastL < x.item_line) <;>
            cases hxn : selNums.contains x.item_num <;> rfl
        rw [List.filter_congr hpt]
        refine dedupF_fuel _ _ _ (le_of_eq rfl) ?_
        rw [← List.filter_filter]
        exact List.length_filter_le _ _
    · have h1' : (decide (lastL < r.item_line) && !(selNums.contains r.item_num)) = false :=
        Bool.eq_false_iff.mpr h1
      rw [h1']
      simp only [Bool.false_and, Bool.false_eq_true, if_false]
      exact ih seen

theorem contains_false_not_mem {l : List String} {a : String}
    (h : l.contains a = false) : a ∉ l := by
  intro hm
  have := List.elem_iff.mpr hm
  rw [show l.contains a = l.elem a from rfl, this] at h
  cases h

/-- Claim C7: for every nonempty selected candidate, orphan recovery returns
the selected entries followed by exactly the first occurrence of each label
lying strictly after the selected candidate's last line and not already
selected, in document order with original line numbers; each orphan label
appears exactly once in the final SelectedSequence. -/
theorem orphan_recovery_first_occurrences (sel dict : List Entry) (hne : sel ≠ []) :
    append_orphans sel dict = sel ++ orphanSpec sel dict ∧
    ((orphanSpec sel dict).map Entry.item_num).Nodup ∧
    (orphanSpec sel dict).Sublist dict ∧
    (∀ e ∈ orphanSpec sel dict, lastLineOf sel < e.item_line ∧
      e.item_num ∉ sel.map Entry.item_num) ∧
    (∀ lbl ∈ (orphanSpec sel dict).map Entry.item_num,
      ((append_orphans sel dict).map Entry.item_num).count lbl = 1) := by
  have horph : ∀ e ∈ orphanSpec sel dict, lastLineOf sel < e.item_line ∧
      e.item_num ∉ sel.map Entry.item_num := by
    intro e he
    have hef : e ∈ (dict.filter (fun r => decide (lastLineOf sel < r.item_line)
        && !((sel.map Entry.item_num).contains r.item_num))) := by
      have hsub : List.Sublist (orphanSpec sel dict)
          (dict.filter (fun r => decide (lastLineOf sel < r.item_line)
            && !((sel.map Entry.item_num).contains r.item_num))) := dedupF_sublist _ _
      exact hsub.mem he
    have hc := (List.mem_filter.mp hef).2
    rcases Bool.and_eq_true .. |>.mp hc with ⟨h1, h2⟩
    refine ⟨of_decide_eq_true h1, contains_false_not_mem ?_⟩
    cases hcc : (sel.map Entry.item_num).contains e.item_num with
    | false => rfl
    | true => rw [hcc] at h2; cases h2
  have heq : append_orphans sel dict = sel ++ orphanSpec sel dict := by
    cases sel with
    | nil => exact absurd rfl hne
    | cons s0 srest =>
      simp only [append_orphans]
      congr 1
      rw [orphanAux_eq_spec]
      unfold orphanSpec
      congr 1
      exact List.filter_eq_self.mpr (fun a _ => rfl)
  have hnd : ((orphanSpec sel dict).map Entry.item_num).Nodup :=
    dedupF_labels_nodup _ _ (le_refl _)
  refine ⟨heq, hnd, (dedupF_sublist _ _).trans (List.filter_sublist _), horph, ?_⟩
  intro lbl hlbl
  rw [heq, List.map_append, List.count_append]
  rcases List.mem_map.mp hlbl with ⟨e, he, rfl⟩
  have h0 : List.count e.item_num (sel.map Entry.item_num) = 0 :=
    List.count_eq_zero.mpr (horph e he).2
  rw [h0, List.count_eq_one_of_mem hnd hlbl]

/-- Claim C7, witness: one selected entry, with a duplicated body-only label
after it. -/
theorem orphan_recovery_first_occurrences_witness :
    (([⟨"7", 10⟩] : List Entry) ≠ []) ∧
    append_orphans [⟨"7", 10⟩] [⟨"7", 5⟩, ⟨"16", 12⟩, ⟨"16", 14⟩] =
      [⟨"7", 10⟩] ++ orphanSpec [⟨"7", 10⟩] [⟨"7", 5⟩, ⟨"16", 12⟩, ⟨"16", 14⟩] ∧
    orphanSpec [⟨"7", 10⟩] [⟨"7", 5⟩, ⟨"16", 12⟩, ⟨"16", 14⟩] = [⟨"16", 12⟩] :=
  ⟨by decide,
    (orphan_recovery_first_occurrences [⟨"7", 10⟩]
      [⟨"7", 5⟩, ⟨"16", 12⟩, ⟨"16", 14⟩] (by decide)).1,
    rfl⟩

/-!
Claim C8: the fallback candidate set replaces an empty-round primary set.
-/

theorem fallbackRoundPass_eq_roundPass (dict : List Entry) (rounds : Nat)
    (hcnt : ∀ e ∈ dict, countNum dict e.item_num ≥ rounds) :
    ∀ (ts : List String) (cur : Nat),
    fallbackRoundPass dict rounds ts cur = roundPass dict ts cur := by
  intro ts
  induction ts with
  | nil => intro cur; rfl
  | cons t ts ih =>
    intro cur
    cases hf : dict.find? (fun r => r.item_num == t && decide (cur < r.item_line)) with
    | some r =>
      have hmem : r ∈ dict := List.mem_of_find?_eq_some hf
      simp only [fallbackRoundPass, roundPass, hf, if_pos (hcnt r hmem), ih]
    | none =>
      simp only [fallbackRoundPass, roundPass, hf, ih]

theorem fallbackRoundsAux_eq_primary (tc : List String) (dict : List Entry) (rounds : Nat)
    (hcnt : ∀ e ∈ dict, countNum dict e.item_num ≥ rounds) :
    ∀ (n : Nat) (cur : Nat),
    fallbackRoundsAux tc dict rounds n cur = primaryRoundsAux tc dict n cur := by
  intro n
  induction n with
  | zero => intro cur; rfl
  | succ n ih =>
    intro cur
    simp only [fallbackRoundsAux, primaryRoundsAux,
      fallbackRoundPass_eq_roundPass dict rounds hcnt tc cur, ih]

/-- Claim C8: whenever the primary candidate set contains an empty candidate,
`build_candidates` returns the fallback candidate set with no error surfaced;
and the fallback builder differs from the primary only in its cursor-advance
condition — when every label's occurrence count reaches the round count the
two builders coincide. -/
theorem fallback_replaces_empty_primary :
    (∀ (doc : List String) (tc : List String) (rds : Int),
      table_content_builder doc = .ok tc →
      number_of_rounds (item_dict_builder doc) true = .ok rds →
      (primaryRounds tc (item_dict_builder doc) rds.toNat).any (fun c => c.isEmpty) = true →
      build_candidates doc = .ok (fallbackRounds tc (item_dict_builder doc) rds.toNat,
        item_dict_builder doc)) ∧
    (∀ (tc : List String) (dict : List Entry) (rounds : Nat),
      (∀ e ∈ dict, countNum dict e.item_num ≥ rounds) →
      fallbackRounds tc dict rounds = primaryRounds tc dict rounds) := by
  constructor
  · intro doc tc rds h1 h2 h3
    unfold build_candidates fallback_build_candidates
    rw [h1, h2]
    simp only [h3, if_true]
  · intro tc dict rounds hcnt
    unfold fallbackRounds primaryRounds
    exact fallbackRoundsAux_eq_primary tc dict rounds hcnt rounds 0

/-- Claim C8, witness: the fallback-triggering document, plus a one-round
instance on which the two builders coincide. -/
theorem fallback_replaces_empty_primary_witness :
    table_content_builder fallbackCexDoc =
      .ok ["1", "1A", "1B", "1C", "1D", "2", "3", "4", "5", "6", "7", "7A", "8"] ∧
    number_of_rounds (item_dict_builder fallbackCexDoc) true = .ok 2 ∧
    (primaryRounds ["1", "1A", "1B", "1C", "1D", "2", "3", "4", "5", "6", "7", "7A", "8"]
      (item_dict_builder fallbackCexDoc) (Int.toNat 2)).any (fun c => c.isEmpty) = true ∧
    build_candidates fallbackCexDoc =
      .ok (fallbackRounds ["1", "1A", "1B", "1C", "1D", "2", "3", "4", "5", "6", "7", "7A", "8"]
        (item_dict_builder fallbackCexDoc) (Int.toNat 2), item_dict_builder fallbackCexDoc) ∧
    (∀ e ∈ ([⟨"7", 4⟩] : List Entry), countNum [⟨"7", 4⟩] e.item_num ≥ 1) ∧
    fallbackRounds ["7"] [⟨"7", 4⟩] 1 = primaryRounds ["7"] [⟨"7", 4⟩] 1 :=
  ⟨rfl, rfl, rfl,
    fallback_replaces_empty_primary.1 fallbackCexDoc _ 2 rfl rfl rfl,
    by decide,
    fallback_replaces_empty_primary.2 ["7"] [⟨"7", 4⟩] 1 (by decide)⟩

/-!
Claim C5: the selector maximises character spans, ties to the earliest round.
-/

theorem firstIdxOf_lt_length : ∀ (l : List Int) (x : Int), x ∈ l →
    firstIdxOf l x < l.length := by
  intro l
  induction l with
  | nil => intro x hx; cases hx
  | cons y ys ih =>
    intro x hx
    simp only [firstIdxOf, List.length_cons]
    by_cases h : y = x
    · rw [if_pos h]; omega
    · rw [if_neg h]
      rcases List.mem_cons.mp hx with rfl | hx'
      · exact absurd rfl h
      · have := ih x hx'
        omega

theorem pureBest_some_spec : ∀ (ss : List Int) (bI : Nat) (bS : Int) (i : Nat),
    pureBest ss (some (bI, bS)) i =
      if bS < ss.foldl max bS then i + firstIdxOf ss (ss.foldl max bS) else bI := by
  intro ss
  induction ss with
  | nil =>
    intro bI bS i
    simp [pureBest]
  | cons s ss ih =>
    intro bI bS i
    simp only [pureBest, List.foldl_cons]
    by_cases hbs : bS < s
    · simp only [decide_eq_true hbs, if_true]
      rw [ih i s (i + 1)]
      have hmax : max bS s = s := max_eq_right (le_of_lt hbs)
      rw [hmax]
      have hle : s ≤ ss.foldl max s := foldl_max_init_le ss s
      rw [if_pos (lt_of_lt_of_le hbs hle)]
      simp only [firstIdxOf]
      by_cases hs : s < ss.foldl max s
      · rw [if_pos hs, if_neg (by omega : ¬ s = ss.foldl max s)]
        omega
      · have heq : ss.foldl max s = s := le_antisymm (not_lt.mp hs) hle
        rw [if_neg hs, heq, if_pos rfl]
        omega
    · simp only [decide_eq_false hbs, Bool.false_eq_true, if_false]
      rw [ih bI bS (i + 1)]
      have hmax : max bS s = bS := max_eq_left (not_lt.mp hbs)
      rw [hmax]
      by_cases hM : bS < ss.foldl max bS
      · rw [if_pos hM, if_pos hM]
        simp only [firstIdxOf]
        have hsle : s ≤ bS := not_lt.mp hbs
        rw [if_neg (by omega : ¬ s = ss.foldl max bS)]
        omega
      · rw [if_neg hM, if_neg hM]

theorem bestLoop_pure (starts : List Nat) (nl : Nat) :
    ∀ (cs : List (List Entry)) (best : Option (Nat × Int)) (i : Nat),
    (∀ c ∈ cs, c ≠ []) →
    bestLoop starts nl cs best i = .ok (pureBest (cs.map (candSpan starts nl)) best i) := by
  intro cs
  induction cs with
  | nil =>
    intro best i _
    cases best with
    | none => rfl
    | some b => cases b; rfl
  | cons c cs ih =>
    intro best i hne
    cases c with
    | nil => exact absurd rfl (hne [] (List.mem_cons_self [] cs))
    | cons e tl =>
      have ih' := ih (some (i, candSpan starts nl (e :: tl))) (i + 1)
        (fun x hx => hne x (List.mem_cons_of_mem _ hx))
      have ih'' := fun b => ih b (i + 1) (fun x hx => hne x (List.mem_cons_of_mem _ hx))
      cases best with
      | none =>
        simp only [bestLoop, List.map_cons, pureBest, if_true]
        exact ih'
      | some b =>
        obtain ⟨bI, bS⟩ := b
        simp only [bestLoop, List.map_cons, pureBest]
        by_cases hbs : bS < candSpan starts nl (e :: tl)
        · simp only [decide_eq_true hbs, if_true]
          exact ih'
        · simp only [decide_eq_false hbs, Bool.false_eq_true, if_false]
          exact ih'' (some (bI, bS))

theorem normIdx_in_range {line n : Nat} (h1 : 1 ≤ line) (h2 : line ≤ n) :
    normIdx line n = line - 1 := by
  unfold normIdx
  rw [if_pos ⟨h1, h2⟩]

theorem candSpan_eq_specSpan (doc : List String) (c : List Entry) (hne : c ≠ [])
    (hr : ∀ e ∈ c, 1 ≤ e.item_line ∧ e.item_line ≤ doc.length) :
    candSpan (lineStartOffsets doc) doc.length c = specSpanChars doc c := by
  cases c with
  | nil => exact absurd rfl hne
  | cons e tl =>
    have hlast_mem : (e :: tl).getLastD ⟨"", 0⟩ ∈ e :: tl := by
      rw [List.getLastD_cons]
      exact List.getLastD_mem_cons tl e
    obtain ⟨hl1, hl2⟩ := hr _ hlast_mem
    obtain ⟨he1, he2⟩ := hr e (List.mem_cons_self e tl)
    unfold candSpan specSpanChars
    rw [show (e :: tl).headD ⟨"", 0⟩ = e from rfl]
    rw [normIdx_in_range hl1 hl2, normIdx_in_range he1 he2]

theorem pureBest_none_firstMax : ∀ (spans : List Int), spans ≠ [] →
    pureBest spans none 0 = firstMaxIdx spans := by
  intro spans hne
  cases spans with
  | nil => exact absurd rfl hne
  | cons s0 ss =>
    simp only [pureBest, if_true]
    rw [pureBest_some_spec ss 0 s0 1]
    simp only [firstMaxIdx, listMaxInt, firstIdxOf]
    have hle : s0 ≤ ss.foldl max s0 := foldl_max_init_le ss s0
    by_cases hs : s0 < ss.foldl max s0
    · rw [if_pos hs, if_neg (by omega : ¬ s0 = ss.foldl max s0)]
      omega
    · have heq : ss.foldl max s0 = s0 := le_antisymm (not_lt.mp hs) hle
      rw [if_neg hs, heq, if_pos rfl]

/-- Claim C5 amended: with more than one candidate, all nonempty and with
in-range line numbers, the selector returns the candidate at the first index
of maximal character span (offsets in code points, ties to the earliest
round), orphans appended; a one-element candidate set is selected without
scoring. -/
theorem selector_char_span_maximal :
    (∀ (doc : List String) (ll : List (List Entry)) (dict : List Entry),
      1 < ll.length →
      (∀ c ∈ ll, c ≠ []) →
      (∀ c ∈ ll, ∀ e ∈ c, 1 ≤ e.item_line ∧ e.item_line ≤ doc.length) →
      select_best_candidate ll dict doc =
        .ok (append_orphans
          (ll.getD (firstMaxIdx (ll.map (specSpanChars doc))) []) dict)) ∧
    (∀ (doc : List String) (c : List Entry) (dict : List Entry),
      select_best_candidate [c] dict doc = .ok (append_orphans c dict)) := by
  constructor
  · intro doc ll dict hlen hne hr
    have hmap : ll.map (candSpan (lineStartOffsets doc) doc.length) =
        ll.map (specSpanChars doc) :=
      List.map_congr_left (fun c hc => candSpan_eq_specSpan doc c (hne c hc) (hr c hc))
    have hnel : ll ≠ [] := by
      intro h; rw [h] at hlen; simp at hlen
    have hmapne : ll.map (specSpanChars doc) ≠ [] := by
      cases ll with
      | nil => exact absurd rfl hnel
      | cons a b => simp
    have hbeq : (ll.length == 1) = false := by
      rw [beq_eq_false_iff_ne]
      omega
    have hidx : firstMaxIdx (ll.map (specSpanChars doc)) < ll.length := by
      have hmem : listMaxInt (ll.map (specSpanChars doc)) ∈ ll.map (specSpanChars doc) :=
        listMaxInt_mem hmapne
      have := firstIdxOf_lt_length _ _ hmem
      rw [List.length_map] at this
      exact this
    have hget : ll.get? (firstMaxIdx (ll.map (specSpanChars doc))) =
        some (ll.getD (firstMaxIdx (ll.map (specSpanChars doc))) []) := by
      rw [List.getD_eq_get?, List.get?_eq_get hidx]
      rfl
    unfold select_best_candidate
    rw [hbeq]
    simp only [Bool.false_eq_true, if_false]
    rw [bestLoop_pure (lineStartOffsets doc) doc.length ll none 0 hne]
    rw [show pureBest (ll.map (candSpan (lineStartOffsets doc) doc.length)) none 0 =
          firstMaxIdx (ll.map (specSpanChars doc)) from by
      rw [hmap]
      exact pureBest_none_firstMax _ hmapne]
    simp only [hget]
  · intro doc c dict
    rfl

/-- Claim C5 amended, witness: the multibyte document, where the second
candidate has the larger character span. -/
theorem selector_char_span_maximal_witness :
    1 < ([mbCand0, mbCand1] : List (List Entry)).length ∧
    (∀ c ∈ ([mbCand0, mbCand1] : List (List Entry)), c ≠ []) ∧
    (∀ c ∈ ([mbCand0, mbCand1] : List (List Entry)), ∀ e ∈ c,
      1 ≤ e.item_line ∧ e.item_line ≤ multibyteDoc.length) ∧
    select_best_candidate [mbCand0, mbCand1] [] multibyteDoc =
      .ok (append_orphans
        (([mbCand0, mbCand1] : List (List Entry)).getD
          (firstMaxIdx ([mbCand0, mbCand1].map (specSpanChars multibyteDoc))) []) []) ∧
    select_best_candidate [mbCand0] [] multibyteDoc = .ok (append_orphans mbCand0 []) :=
  ⟨by decide, by decide, by decide,
    selector_char_span_maximal.1 multibyteDoc [mbCand0, mbCand1] [] (by decide)
      (by decide) (by decide),
    selector_char_span_maximal.2 multibyteDoc mbCand0 []⟩

/-!
Claim C1 (amended): when the fallback is not invoked, the engine output is
strictly increasing.
-/

theorem pairwise_le_lastLine : ∀ (sel : List Entry),
    List.Pairwise (fun a b : Entry => a.item_line < b.item_line) sel →
    ∀ x ∈ sel, x.item_line ≤ lastLineOf sel := by
  intro sel
  induction sel with
  | nil => intro _ x hx; cases hx
  | cons e rest ih =>
    intro hpw x hx
    cases rest with
    | nil =>
      rcases List.mem_cons.mp hx with rfl | hx'
      · exact le_refl _
      · cases hx'
    | cons e' rest' =>
      have hlast : lastLineOf (e :: e' :: rest') = lastLineOf (e' :: rest') := by
        simp only [lastLineOf, List.getLastD_cons]
      rcases List.mem_cons.mp hx with rfl | hx'
      · have hlt : x.item_line < e'.item_line :=
          (List.pairwise_cons.mp hpw).1 e' (List.mem_cons_self e' rest')
        have hle : e'.item_line ≤ lastLineOf (e' :: rest') :=
          ih (List.pairwise_cons.mp hpw).2 e' (List.mem_cons_self e' rest')
        rw [hlast]
        omega
      · rw [hlast]
        exact ih (List.pairwise_cons.mp hpw).2 x hx'

theorem append_orphans_pairwise (sel dict : List Entry)
    (hsel : List.Pairwise (fun a b : Entry => a.item_line < b.item_line) sel)
    (hdict : List.Pairwise (fun a b : Entry => a.item_line < b.item_line) dict) :
    List.Pairwise (fun a b : Entry => a.item_line < b.item_line)
      (append_orphans sel dict) := by
  cases sel with
  | nil => simp [append_orphans]
  | cons s0 srest =>
    simp only [append_orphans]
    refine List.pairwise_append.mpr ⟨hsel, ?_, ?_⟩
    · have hsub : List.Sublist
          (orphanAux (lastLineOf (s0 :: srest)) ((s0 :: srest).map Entry.item_num) dict [])
          dict := by
        rw [orphanAux_eq_spec]
        exact (dedupF_sublist _ _).trans
          ((List.filter_sublist _).trans (List.filter_sublist _))
      exact List.Pairwise.sublist hsub hdict
    · intro a ha b hb
      have hb' : lastLineOf (s0 :: srest) < b.item_line := by
        rw [orphanAux_eq_spec] at hb
        have hbf : b ∈ dict.filter
            (fun r => decide (lastLineOf (s0 :: srest) < r.item_line)
              && !(((s0 :: srest).map Entry.item_num).contains r.item_num)) :=
          ((dedupF_sublist _ _).trans (List.filter_sublist _)).mem hb
        have hc := (List.mem_filter.mp hbf).2
        exact of_decide_eq_true (Bool.and_eq_true .. |>.mp hc).1
      have ha' : a.item_line ≤ lastLineOf (s0 :: srest) :=
        pairwise_le_lastLine (s0 :: srest) hsel a ha
      omega

theorem primary_candidate_pairwise (tc : List String) (dict : List Entry) (rounds : Nat) :
    ∀ c ∈ primaryRounds tc dict rounds,
    List.Pairwise (fun a b : Entry => a.item_line < b.item_line) c := by
  intro c hc
  exact List.Pairwise.sublist (List.sublist_flatten_of_mem hc)
    (primaryRoundsAux_spec tc dict rounds 0).1

theorem select_ok_mem (ll : List (List Entry)) (dict : List Entry) (doc : List String)
    (sel : List Entry) (h : select_best_candidate ll dict doc = .ok sel) :
    ∃ c, c ∈ ll ∧ sel = append_orphans c dict := by
  unfold select_best_candidate at h
  by_cases hb : (ll.length == 1) = true
  · simp only [hb, if_true] at h
    have hone : ll.length = 1 := eq_of_beq hb
    obtain ⟨a, rfl⟩ := List.length_eq_one.mp hone
    refine ⟨a, List.mem_cons_self a [], ?_⟩
    have := Except.ok.injEq .. |>.mp h
    rw [← this]
    rfl
  · have hb' : (ll.length == 1) = false := Bool.eq_false_iff.mpr hb
    simp only [hb', Bool.false_eq_true, if_false] at h
    cases hbl : bestLoop (lineStartOffsets doc) doc.length ll none 0 with
    | error e =>
      simp only [hbl] at h
      exact Except.noConfusion h
    | ok bI =>
      simp only [hbl] at h
      cases hg : ll.get? bI with
      | none =>
        simp only [hg] at h
        exact Except.noConfusion h
      | some c =>
        simp only [hg] at h
        refine ⟨c, ?_, ?_⟩
        · obtain ⟨hlt, hget⟩ := List.get?_eq_some.mp hg
          rw [← hget]
          exact List.get_mem ll bI hlt
        · exact (Except.ok.injEq .. |>.mp h).symm

/-- Claim C1 amended: on every document for which the primary candidate set
is used (no primary candidate is empty, so the fallback is not invoked), the
SelectedSequence returned by `item_segmentation_list` has strictly increasing
line numbers across its entries, including after orphan recovery. -/
theorem primary_path_monotone (doc : List String) (tc : List String) (rds : Int)
    (sel : List Entry)
    (h1 : table_content_builder doc = .ok tc)
    (h2 : number_of_rounds (item_dict_builder doc) true = .ok rds)
    (h3 : (primaryRounds tc (item_dict_builder doc) rds.toNat).any
      (fun c => c.isEmpty) = false)
    (h4 : item_segmentation_list doc = .ok sel) :
    List.Pairwise (fun a b : Entry => a.item_line < b.item_line) sel := by
  have hbuild : build_candidates doc =
      .ok (primaryRounds tc (item_dict_builder doc) rds.toNat, item_dict_builder doc) := by
    unfold build_candidates
    rw [h1, h2]
    simp only [h3, Bool.false_eq_true, if_false]
  unfold item_segmentation_list at h4
  simp only [hbuild] at h4
  obtain ⟨c, hc, rfl⟩ := select_ok_mem _ _ _ _ h4
  exact append_orphans_pairwise c (item_dict_builder doc)
    (primary_candidate_pairwise tc _ _ c hc) (item_dict_pairwise doc)

/-- Claim C1 amended, witness: a clean two-round document on which the
primary path succeeds and the output is strictly increasing. -/
theorem primary_path_monotone_witness :
    table_content_builder primaryOkDoc =
      .ok ["1", "1A", "1B", "1C", "1D", "2", "3", "4", "5", "6", "7", "7A", "8"] ∧
    number_of_rounds (item_dict_builder primaryOkDoc) true = .ok 2 ∧
    (primaryRounds ["1", "1A", "1B", "1C", "1D", "2", "3", "4", "5", "6", "7", "7A", "8"]
      (item_dict_builder primaryOkDoc) (Int.toNat 2)).any (fun c => c.isEmpty) = false ∧
    item_segmentation_list primaryOkDoc = .ok [⟨"7", 3⟩, ⟨"8", 6⟩] ∧
    List.Pairwise (fun a b : Entry => a.item_line < b.item_line)
      ([⟨"7", 3⟩, ⟨"8", 6⟩] : List Entry) :=
  ⟨rfl, rfl, rfl, rfl,
    primary_path_monotone primaryOkDoc
      ["1", "1A", "1B", "1C", "1D", "2", "3", "4", "5", "6", "7", "7A", "8"] 2
      [⟨"7", 3⟩, ⟨"8", 6⟩] rfl rfl rfl rfl⟩
